import Mathlib

/-!
Verification of the biology quiz study program and its bank-merge utility.

The embedding is shallow:

* Python floats are modelled as rationals (the constants 1.0, 0.1, 0.3, 0.5
  and the arithmetic on them are exact in both settings for the properties
  stated here).
* A Python dict is modelled as an association list in insertion order;
  lookup returns the first binding of a key.
* The random draws of the selector (random.uniform, random.choice) are
  modelled as explicit parameters: a rational for the uniform draw and a
  natural-number index for the uniform choice.
* The interactive answer loop of ask_question is modelled by passing the
  chosen option string directly; the session statistics (a defaultdict with
  default {correct: 0, incorrect: 0}) become a total function from question
  text to a pair of counters.
* For the merge utility, Python's reference semantics (shallow dict copy,
  in-place list extend) are modelled with an explicit heap: lists live at
  numeric references and a dict maps chapter names to references.
-/

namespace BioQuiz

/-- A quiz question as held in memory by the program: in the JSON store it is
an object with fields question, options, correct_option, weight. -/
structure Question where
  text : String
  options : List String
  correct_option : String
  weight : ℚ
deriving DecidableEq

/-- The in-memory question bank: chapter name to ordered question list,
in insertion order (a Python dict keeps insertion order). -/
abbrev Bank := List (String × List Question)

/-- A stored question as it comes out of json.load: the weight field may be
absent, hence an Option. -/
structure RawQuestion where
  text : String
  options : List String
  correct_option : String
  weight : Option ℚ
deriving DecidableEq

/-- A stored bank document. -/
abbrev RawBank := List (String × List RawQuestion)

/-- Dict lookup: the value bound to the first occurrence of the key. -/
def lookupD {α : Type} : List (String × α) → String → Option α
  | [], _ => none
  | (k, v) :: rest, key => if key = k then some v else lookupD rest key

@[simp] theorem lookupD_nil {α : Type} (key : String) :
    lookupD ([] : List (String × α)) key = none := rfl

theorem lookupD_cons {α : Type} (k : String) (v : α) (rest : List (String × α))
    (key : String) :
    lookupD ((k, v) :: rest) key = if key = k then some v else lookupD rest key := rfl

/-- A successful lookup comes from a binding in the list. -/
theorem lookupD_mem {α : Type} {l : List (String × α)} {key : String} {v : α}
    (h : lookupD l key = some v) : (key, v) ∈ l := by
  induction l with
  | nil => simp at h
  | cons kv rest ih =>
    obtain ⟨k, w⟩ := kv
    rw [lookupD_cons] at h
    by_cases hk : key = k
    · rw [if_pos hk] at h
      cases h
      subst hk
      exact List.mem_cons_self _ _
    · rw [if_neg hk] at h
      exact List.mem_cons_of_mem _ (ih h)

/-- A key with no binding looks up to none. -/
theorem lookupD_eq_none {α : Type} {l : List (String × α)} {key : String}
    (h : key ∉ l.map Prod.fst) : lookupD l key = none := by
  induction l with
  | nil => rfl
  | cons kv rest ih =>
    obtain ⟨k, w⟩ := kv
    rw [lookupD_cons]
    simp only [List.map_cons, List.mem_cons] at h
    push_neg at h
    rw [if_neg h.1]
    exact ih h.2

/-- Conversely, a key that looks up to none has no binding. -/
theorem not_mem_of_lookupD_eq_none {α : Type} {l : List (String × α)} {key : String}
    (h : lookupD l key = none) : key ∉ l.map Prod.fst := by
  induction l with
  | nil => simp
  | cons kv rest ih =>
    obtain ⟨k, w⟩ := kv
    rw [lookupD_cons] at h
    by_cases hk : key = k
    · rw [if_pos hk] at h
      cases h
    · rw [if_neg hk] at h
      simpa [hk] using ih h

/-- Under unique keys, every binding is found by lookup. -/
theorem lookupD_of_mem {α : Type} {l : List (String × α)} {key : String} {v : α}
    (hnd : (l.map Prod.fst).Nodup) (h : (key, v) ∈ l) : lookupD l key = some v := by
  induction l with
  | nil => simp at h
  | cons kv rest ih =>
    obtain ⟨k, w⟩ := kv
    simp only [List.map_cons, List.nodup_cons] at hnd
    rcases List.mem_cons.mp h with h1 | h1
    · cases h1
      rw [lookupD_cons, if_pos rfl]
    · have hk : key ≠ k := by
        rintro rfl
        exact hnd.1 (List.mem_map.mpr ⟨(key, v), h1, rfl⟩)
      rw [lookupD_cons, if_neg hk]
      exact ih hnd.2 h1

/-- Lookup is invariant under permutation as long as keys are unique. -/
theorem lookupD_perm {α : Type} {l l' : List (String × α)}
    (hp : l.Perm l') (hnd : (l.map Prod.fst).Nodup) (key : String) :
    lookupD l key = lookupD l' key := by
  have hnd' : (l'.map Prod.fst).Nodup := (hp.map Prod.fst).nodup_iff.mp hnd
  cases hfind : lookupD l key with
  | none =>
    have := not_mem_of_lookupD_eq_none hfind
    have hkey : key ∉ l'.map Prod.fst := fun hc => this ((hp.map Prod.fst).mem_iff.mpr hc)
    exact (lookupD_eq_none hkey).symm
  | some v =>
    exact (lookupD_of_mem hnd' (hp.mem_iff.mp (lookupD_mem hfind))).symm

/-! ## Selection (BiologyQuiz.select_question) -/

/-- Total weight of a question list: sum(q["weight"] for q in questions). -/
def totalWeight (qs : List Question) : ℚ := (qs.map Question.weight).sum

@[simp] theorem totalWeight_nil : totalWeight [] = 0 := rfl

@[simp] theorem totalWeight_cons (q : Question) (qs : List Question) :
    totalWeight (q :: qs) = q.weight + totalWeight qs := by
  simp [totalWeight]

/-- Cumulative weight of the first n questions of the list. -/
def cumWeight (qs : List Question) (n : Nat) : ℚ := totalWeight (qs.take n)

@[simp] theorem cumWeight_zero (qs : List Question) : cumWeight qs 0 = 0 := rfl

theorem cumWeight_succ_cons (q : Question) (qs : List Question) (n : Nat) :
    cumWeight (q :: qs) (n + 1) = q.weight + cumWeight qs n := by
  simp [cumWeight, List.take]

/-- The selection walk of select_question: cumulative_weight starts at the
accumulator, each question adds its weight, and the first question with
r <= cumulative_weight is returned; none if the walk falls off the end. -/
def walk (r : ℚ) : ℚ → List Question → Option Question
  | _, [] => none
  | acc, q :: qs => if r ≤ acc + q.weight then some q else walk r (acc + q.weight) qs

@[simp] theorem walk_nil (r acc : ℚ) : walk r acc [] = none := rfl

theorem walk_cons (r acc : ℚ) (q : Question) (qs : List Question) :
    walk r acc (q :: qs) =
      if r ≤ acc + q.weight then some q else walk r (acc + q.weight) qs := rfl

/-- BiologyQuiz.select_question with the two random draws passed explicitly:
r models random.uniform(0, total_weight) and idx models the index drawn by
random.choice.  A chapter missing from the bank is modelled as none (the
Python code would raise KeyError; no claim concerns that case). -/
def select_question (disabled : List String) (bank : Bank) (chapter : String)
    (r : ℚ) (idx : Nat) : Option Question :=
  if chapter ∈ disabled then none
  else
    match lookupD bank chapter with
    | none => none
    | some questions =>
      if questions.isEmpty then none
      else
        if totalWeight questions = 0 then questions.get? (idx % questions.length)
        else
          match walk r 0 questions with
          | some q => some q
          | none => questions.getLast?

/-- The walk returns the question at the first index whose cumulative weight
reaches r. -/
theorem walk_eq_get (qs : List Question) :
    ∀ (c r : ℚ) (i : Nat), i < qs.length →
      r ≤ c + cumWeight qs (i + 1) →
      (∀ j, j < i → c + cumWeight qs (j + 1) < r) →
      walk r c qs = qs.get? i := by
  induction qs with
  | nil => intro c r i hi; simp at hi
  | cons q rest ih =>
    intro c r i hi hreach hbefore
    rw [walk_cons]
    cases i with
    | zero =>
      rw [cumWeight_succ_cons, cumWeight_zero, add_zero] at hreach
      rw [if_pos (by linarith), List.get?]
    | succ j =>
      have h0 : c + cumWeight (q :: rest) 1 < r := hbefore 0 (Nat.succ_pos j)
      rw [cumWeight_succ_cons, cumWeight_zero, add_zero] at h0
      rw [if_neg (by linarith)]
      have hj : j < rest.length := by simpa using hi
      have hreach' : r ≤ (c + q.weight) + cumWeight rest (j + 1) := by
        rw [cumWeight_succ_cons] at hreach
        linarith
      have hbefore' : ∀ j', j' < j → (c + q.weight) + cumWeight rest (j' + 1) < r := by
        intro j' hj'
        have := hbefore (j' + 1) (Nat.succ_lt_succ hj')
        rw [cumWeight_succ_cons] at this
        linarith
      rw [ih (c + q.weight) r j hj hreach' hbefore']
      rfl

/-- If no prefix of the list accumulates up to r, the walk returns none. -/
theorem walk_eq_none (qs : List Question) :
    ∀ (c r : ℚ), (∀ i, i < qs.length → c + cumWeight qs (i + 1) < r) →
      walk r c qs = none := by
  induction qs with
  | nil => intro c r _; rfl
  | cons q rest ih =>
    intro c r hall
    have h0 : c + cumWeight (q :: rest) 1 < r := hall 0 (Nat.succ_pos _)
    rw [cumWeight_succ_cons, cumWeight_zero, add_zero] at h0
    rw [walk_cons, if_neg (by linarith)]
    refine ih (c + q.weight) r (fun i hi => ?_)
    have := hall (i + 1) (by simpa using Nat.succ_lt_succ hi)
    rw [cumWeight_succ_cons] at this
    linarith

/-- The walk over a non-empty list either hits a question or falls off the
end; it never skips: its result is some question of the list or none. -/
theorem walk_isSome_or_none (r c : ℚ) (qs : List Question) :
    (∃ q, walk r c qs = some q) ∨ walk r c qs = none := by
  cases h : walk r c qs with
  | none => exact Or.inr rfl
  | some q => exact Or.inl ⟨q, rfl⟩

/-- Unfolding of select_question on an enabled, present, non-empty chapter
with nonzero total weight. -/
theorem select_question_weighted_eq (disabled : List String) (bank : Bank)
    (chapter : String) (qs : List Question) (r : ℚ) (idx : Nat)
    (hd : chapter ∉ disabled) (hb : lookupD bank chapter = some qs)
    (hne : qs ≠ []) (htot : totalWeight qs ≠ 0) :
    select_question disabled bank chapter r idx =
      match walk r 0 qs with
      | some q => some q
      | none => qs.getLast? := by
  unfold select_question
  rw [if_neg hd, hb]
  have hempty : qs.isEmpty = false := by
    cases qs with
    | nil => exact absurd rfl hne
    | cons a l => rfl
  simp only [hempty, Bool.false_eq_true, if_false]
  rw [if_neg htot]

/-- Unfolding of select_question on an enabled, present, non-empty chapter
with zero total weight. -/
theorem select_question_zero_eq (disabled : List String) (bank : Bank)
    (chapter : String) (qs : List Question) (r : ℚ) (idx : Nat)
    (hd : chapter ∉ disabled) (hb : lookupD bank chapter = some qs)
    (hne : qs ≠ []) (htot : totalWeight qs = 0) :
    select_question disabled bank chapter r idx = qs.get? (idx % qs.length) := by
  unfold select_question
  rw [if_neg hd, hb]
  have hempty : qs.isEmpty = false := by
    cases qs with
    | nil => exact absurd rfl hne
    | cons a l => rfl
  simp only [hempty, Bool.false_eq_true, if_false]
  rw [if_pos htot]

/-- C1: on an enabled chapter whose list is non-empty with positive total
weight, selection returns the first question whose cumulative weight reaches
the draw r, falls back to the last question when every running cumulative sum
stays below r, and in every case returns a question (never none). -/
theorem select_question_weighted_c1 (disabled : List String) (bank : Bank)
    (chapter : String) (qs : List Question)
    (hd : chapter ∉ disabled) (hb : lookupD bank chapter = some qs)
    (hne : qs ≠ []) (hpos : 0 < totalWeight qs) :
    (∀ (r : ℚ) (idx : Nat) (i : Nat), i < qs.length →
        r ≤ cumWeight qs (i + 1) →
        (∀ j, j < i → cumWeight qs (j + 1) < r) →
        select_question disabled bank chapter r idx = qs.get? i)
    ∧ (∀ (r : ℚ) (idx : Nat), (∀ i, i < qs.length → cumWeight qs (i + 1) < r) →
        select_question disabled bank chapter r idx = qs.getLast?)
    ∧ (∀ (r : ℚ) (idx : Nat), ∃ q, select_question disabled bank chapter r idx = some q) := by
  have htot : totalWeight qs ≠ 0 := ne_of_gt hpos
  refine ⟨?_, ?_, ?_⟩
  · intro r idx i hi hreach hbefore
    rw [select_question_weighted_eq disabled bank chapter qs r idx hd hb hne htot]
    have hwalk : walk r 0 qs = qs.get? i := by
      refine walk_eq_get qs 0 r i hi (by rw [zero_add]; exact hreach) ?_
      intro j hj
      rw [zero_add]
      exact hbefore j hj
    rw [hwalk]
    have : ∃ q, qs.get? i = some q := by
      rw [List.get?_eq_get hi]
      exact ⟨qs.get ⟨i, hi⟩, rfl⟩
    obtain ⟨q, hq⟩ := this
    rw [hq]
  · intro r idx hall
    rw [select_question_weighted_eq disabled bank chapter qs r idx hd hb hne htot]
    have hwalk : walk r 0 qs = none := by
      refine walk_eq_none qs 0 r ?_
      intro i hi
      rw [zero_add]
      exact hall i hi
    rw [hwalk]
  · intro r idx
    rw [select_question_weighted_eq disabled bank chapter qs r idx hd hb hne htot]
    cases hwalk : walk r 0 qs with
    | some q => exact ⟨q, rfl⟩
    | none =>
      have : qs.getLast?.isSome := List.getLast?_isSome.mpr hne
      obtain ⟨q, hq⟩ := Option.isSome_iff_exists.mp this
      exact ⟨q, hq⟩

/-- C4: selection on a disabled chapter returns none whatever the bank holds,
and selection on an enabled chapter that is present with an empty question
list returns none. -/
theorem select_question_none_c4 :
    (∀ (disabled : List String) (bank : Bank) (chapter : String) (r : ℚ) (idx : Nat),
        chapter ∈ disabled → select_question disabled bank chapter r idx = none)
    ∧ (∀ (disabled : List String) (bank : Bank) (chapter : String) (r : ℚ) (idx : Nat),
        chapter ∉ disabled → lookupD bank chapter = some [] →
        select_question disabled bank chapter r idx = none) := by
  constructor
  · intro disabled bank chapter r idx hmem
    unfold select_question
    rw [if_pos hmem]
  · intro disabled bank chapter r idx hd hb
    unfold select_question
    rw [if_neg hd, hb]
    rfl

/-- C5: on an enabled, present, non-empty chapter whose weights sum to zero,
selection is the uniform choice over the whole list: the drawn index idx
yields entry idx mod length, every position of the list is reached by exactly
the draws congruent to it, and a question is always returned (no division by
zero). -/
theorem select_question_zero_total_c5 (disabled : List String) (bank : Bank)
    (chapter : String) (qs : List Question)
    (hd : chapter ∉ disabled) (hb : lookupD bank chapter = some qs)
    (hne : qs ≠ []) (htot : totalWeight qs = 0) :
    (∀ (r : ℚ) (idx : Nat),
        select_question disabled bank chapter r idx = qs.get? (idx % qs.length))
    ∧ (∀ (r : ℚ) (i : Nat), i < qs.length →
        select_question disabled bank chapter r i = qs.get? i)
    ∧ (∀ (r : ℚ) (idx : Nat), ∃ q, select_question disabled bank chapter r idx = some q) := by
  refine ⟨?_, ?_, ?_⟩
  · intro r idx
    exact select_question_zero_eq disabled bank chapter qs r idx hd hb hne htot
  · intro r i hi
    rw [select_question_zero_eq disabled bank chapter qs r i hd hb hne htot,
      Nat.mod_eq_of_lt hi]
  · intro r idx
    rw [select_question_zero_eq disabled bank chapter qs r idx hd hb hne htot]
    have hlen : 0 < qs.length := List.length_pos.mpr hne
    have hlt : idx % qs.length < qs.length := Nat.mod_lt idx hlen
    rw [List.get?_eq_get hlt]
    exact ⟨qs.get ⟨idx % qs.length, hlt⟩, rfl⟩

/-! ## Answer evaluation (BiologyQuiz.ask_question) -/

/-- Session statistics: user_stats is a defaultdict mapping question text to
correct and incorrect counters, both starting at 0. -/
abbrev Stats := String → Nat × Nat

/-- The fresh statistics record of a new session. -/
def initStats : Stats := fun _ => (0, 0)

/-- The answer-evaluation core of BiologyQuiz.ask_question with the chosen
option passed in (the surrounding prompt loop only turns a typed number into
that option): returns whether the answer was correct together with the
updated question and statistics. -/
def ask_question (q : Question) (chosen : String) (st : Stats) :
    Bool × Question × Stats :=
  if chosen = q.correct_option then
    (true,
     ⟨q.text, q.options, q.correct_option, max 0.1 (q.weight - 0.3)⟩,
     fun s => if s = q.text then ((st s).1 + 1, (st s).2) else st s)
  else
    (false,
     ⟨q.text, q.options, q.correct_option, q.weight + 0.5⟩,
     fun s => if s = q.text then ((st s).1, (st s).2 + 1) else st s)

/-- Iterated evaluation of one question over a sequence of chosen options,
threading the mutated question and statistics through. -/
def runAnswers : Question → Stats → List String → Question × Stats
  | q, st, [] => (q, st)
  | q, st, c :: cs => runAnswers (ask_question q c st).2.1 (ask_question q c st).2.2 cs

/-- C2: evaluation returns true exactly when the chosen option equals the
question's correct_option; a correct answer sets the weight to
max(0.1, weight - 0.3) and adds one to the correct counter of the question's
text, an incorrect answer sets the weight to weight + 0.5 and adds one to the
incorrect counter. -/
theorem ask_question_c2 (q : Question) (chosen : String) (st : Stats) :
    ((ask_question q chosen st).1 = true ↔ chosen = q.correct_option)
    ∧ (chosen = q.correct_option →
        (ask_question q chosen st).2.1.weight = max 0.1 (q.weight - 0.3)
        ∧ ((ask_question q chosen st).2.2 q.text).1 = (st q.text).1 + 1
        ∧ ((ask_question q chosen st).2.2 q.text).2 = (st q.text).2)
    ∧ (chosen ≠ q.correct_option →
        (ask_question q chosen st).2.1.weight = q.weight + 0.5
        ∧ ((ask_question q chosen st).2.2 q.text).2 = (st q.text).2 + 1
        ∧ ((ask_question q chosen st).2.2 q.text).1 = (st q.text).1) := by
  by_cases h : chosen = q.correct_option <;>
    simp [ask_question, h]

/-- A sample question used by the witnesses below. -/
def sampleQ : Question :=
  ⟨"What is the powerhouse of the cell?",
   ["Nucleus", "Mitochondria", "Golgi apparatus", "Endoplasmic reticulum"],
   "Mitochondria", 1.0⟩

/-- Witness for C2 at a concrete question: a correct answer and an incorrect
answer behave as stated. -/
theorem ask_question_c2_witness :
    (ask_question sampleQ "Mitochondria" initStats).2.1.weight = max 0.1 (1.0 - 0.3)
    ∧ ((ask_question sampleQ "Mitochondria" initStats).2.2 sampleQ.text).1 = 0 + 1
    ∧ (ask_question sampleQ "Nucleus" initStats).2.1.weight = 1.0 + 0.5
    ∧ ((ask_question sampleQ "Nucleus" initStats).2.2 sampleQ.text).2 = 0 + 1 := by
  refine ⟨((ask_question_c2 sampleQ "Mitochondria" initStats).2.1 rfl).1, ?_, ?_, ?_⟩
  · exact ((ask_question_c2 sampleQ "Mitochondria" initStats).2.1 rfl).2.1
  · exact ((ask_question_c2 sampleQ "Nucleus" initStats).2.2 (by decide)).1
  · exact ((ask_question_c2 sampleQ "Nucleus" initStats).2.2 (by decide)).2.1

/-- The weight after a correct answer. -/
theorem ask_question_correct_weight (q : Question) (c : String) (st : Stats)
    (h : c = q.correct_option) :
    (ask_question q c st).2.1.weight = max 0.1 (q.weight - 0.3) := by
  unfold ask_question
  rw [if_pos h]

/-- The weight after an incorrect answer. -/
theorem ask_question_incorrect_weight (q : Question) (c : String) (st : Stats)
    (h : ¬ c = q.correct_option) :
    (ask_question q c st).2.1.weight = q.weight + 0.5 := by
  unfold ask_question
  rw [if_neg h]

/-- One evaluation keeps a weight that is at least the floor. -/
theorem ask_question_weight_floor (q : Question) (c : String) (st : Stats)
    (hw : (0.1 : ℚ) ≤ q.weight) : (0.1 : ℚ) ≤ (ask_question q c st).2.1.weight := by
  by_cases h : c = q.correct_option
  · rw [ask_question_correct_weight q c st h]
    exact le_max_left _ _
  · rw [ask_question_incorrect_weight q c st h]
    linarith

/-- Iterated evaluation keeps a weight that is at least the floor. -/
theorem runAnswers_weight_floor :
    ∀ (cs : List String) (q : Question) (st : Stats),
      (0.1 : ℚ) ≤ q.weight → (0.1 : ℚ) ≤ ((runAnswers q st cs).1).weight := by
  intro cs
  induction cs with
  | nil => intro q st hw; exact hw
  | cons c rest ih =>
    intro q st hw
    exact ih _ _ (ask_question_weight_floor q c st hw)

/-- C3: one evaluation of a question with non-negative weight leaves a
non-negative weight, a correct evaluation always leaves at least the floor
0.1, and starting from the default weight 1.0 every sequence of evaluations
keeps the weight at or above 0.1. -/
theorem ask_question_weight_c3 :
    (∀ (q : Question) (c : String) (st : Stats),
        0 ≤ q.weight → 0 ≤ (ask_question q c st).2.1.weight)
    ∧ (∀ (q : Question) (st : Stats),
        (0.1 : ℚ) ≤ (ask_question q q.correct_option st).2.1.weight)
    ∧ (∀ (q : Question) (st : Stats) (cs : List String),
        q.weight = 1.0 → (0.1 : ℚ) ≤ ((runAnswers q st cs).1).weight) := by
  refine ⟨?_, ?_, ?_⟩
  · intro q c st hw
    by_cases h : c = q.correct_option
    · rw [ask_question_correct_weight q c st h]
      have hfl : (0.1 : ℚ) ≤ max 0.1 (q.weight - 0.3) := le_max_left _ _
      linarith
    · rw [ask_question_incorrect_weight q c st h]
      linarith
  · intro q st
    rw [ask_question_correct_weight q q.correct_option st rfl]
    exact le_max_left _ _
  · intro q st cs hw
    refine runAnswers_weight_floor cs q st ?_
    rw [hw]
    norm_num


/-- Witness for C3 at the sample question: its default weight 1.0 stays at or
above the floor over a concrete answer sequence. -/
theorem ask_question_weight_c3_witness :
    (0.1 : ℚ) ≤ ((runAnswers sampleQ initStats
      ["Nucleus", "Mitochondria", "Mitochondria", "Mitochondria"]).1).weight :=
  ask_question_weight_c3.2.2 sampleQ initStats
    ["Nucleus", "Mitochondria", "Mitochondria", "Mitochondria"] rfl

/-! ## Persistence (load_quiz_data, create_sample_data, save_quiz_data) -/

/-- What open + json.load hands to load_quiz_data: a parsed document, a
missing file (FileNotFoundError) or malformed JSON (JSONDecodeError). -/
inductive StoreInput where
  | ok (raw : RawBank)
  | fileNotFound
  | invalidJson
deriving DecidableEq

/-- The in-memory question built from a stored question object: a missing
weight field is set to 1.0, a present weight is kept. -/
def loadQuestion (rq : RawQuestion) : Question :=
  ⟨rq.text, rq.options, rq.correct_option, rq.weight.getD 1.0⟩

/-- The in-memory bank built from a parsed document. -/
def loadBank (raw : RawBank) : Bank :=
  raw.map (fun p => (p.1, p.2.map loadQuestion))

/-- The seed bank of create_sample_data: two chapters of one question each,
every weight the default 1.0. -/
def create_sample_data : Bank :=
  [("Sample Chapter 1",
    [⟨"What is the powerhouse of the cell?",
      ["Nucleus", "Mitochondria", "Golgi apparatus", "Endoplasmic reticulum"],
      "Mitochondria", 1.0⟩]),
   ("Sample Chapter 2",
    [⟨"What is the process by which plants make their food?",
      ["Respiration", "Photosynthesis", "Transpiration", "Digestion"],
      "Photosynthesis", 1.0⟩])]

/-- BiologyQuiz.load_quiz_data: a parsed document is loaded with weight
defaulting; a missing or malformed store falls back to the sample data.
Every branch returns a bank, so the failure is never fatal. -/
def load_quiz_data : StoreInput → Bank
  | StoreInput.ok raw => loadBank raw
  | StoreInput.fileNotFound => create_sample_data
  | StoreInput.invalidJson => create_sample_data

/-- The stored form of an in-memory question: save always writes the weight
field. -/
def saveQuestion (q : Question) : RawQuestion :=
  ⟨q.text, q.options, q.correct_option, some q.weight⟩

/-- BiologyQuiz.save_quiz_data: json.dump of the full in-memory mapping. -/
def save_quiz_data (b : Bank) : RawBank :=
  b.map (fun p => (p.1, p.2.map saveQuestion))

/-- How a loaded question relates to its stored original: all fields are kept
and the weight is the stored one when present, 1.0 when absent. -/
def questionLoadsAs (rq : RawQuestion) (q : Question) : Prop :=
  q.text = rq.text ∧ q.options = rq.options ∧ q.correct_option = rq.correct_option
  ∧ (∀ w, rq.weight = some w → q.weight = w)
  ∧ (rq.weight = none → q.weight = 1.0)

theorem loadQuestion_loadsAs (rq : RawQuestion) : questionLoadsAs rq (loadQuestion rq) := by
  refine ⟨rfl, rfl, rfl, ?_, ?_⟩
  · intro w hw
    simp [loadQuestion, hw]
  · intro hw
    simp [loadQuestion, hw]

/-- C6: loading a parsed document yields exactly the stored mapping, chapter
by chapter and question by question in order, except that a question without
a weight field gets weight 1.0 and a question with a weight keeps it. -/
theorem load_quiz_data_c6 (raw : RawBank) :
    List.Forall₂
      (fun (pr : String × List RawQuestion) (pl : String × List Question) =>
        pl.1 = pr.1 ∧ List.Forall₂ questionLoadsAs pr.2 pl.2)
      raw (load_quiz_data (StoreInput.ok raw)) := by
  show List.Forall₂ _ raw (loadBank raw)
  unfold loadBank
  rw [List.forall₂_map_right_iff]
  rw [List.forall₂_same]
  intro p _
  refine ⟨rfl, ?_⟩
  rw [List.forall₂_map_right_iff, List.forall₂_same]
  intro rq _
  exact loadQuestion_loadsAs rq

/-- C7: a missing or unparseable store is replaced by the deterministic seed
bank, which is non-empty and holds a chapter with a question at the default
weight 1.0; both failure branches return normally. -/
theorem load_quiz_data_failure_c7 :
    load_quiz_data StoreInput.fileNotFound = create_sample_data
    ∧ load_quiz_data StoreInput.invalidJson = create_sample_data
    ∧ create_sample_data ≠ []
    ∧ ∃ chapter qs,
        lookupD create_sample_data chapter = some qs
        ∧ ∃ q ∈ qs, q.weight = 1.0 := by
  refine ⟨rfl, rfl, by simp [create_sample_data], ?_⟩
  refine ⟨"Sample Chapter 1", _, rfl, ?_⟩
  exact ⟨_, List.mem_cons_self _ _, rfl⟩

/-- C8: saving a bank and loading the result reproduces the bank exactly:
same chapters in the same order, same questions in the same order, same
weights (every saved question carries its weight, so no defaulting fires). -/
theorem load_save_roundtrip_c8 (b : Bank) :
    load_quiz_data (StoreInput.ok (save_quiz_data b)) = b := by
  show loadBank (save_quiz_data b) = b
  have hq : ∀ q : Question, loadQuestion (saveQuestion q) = q := fun q => rfl
  unfold loadBank save_quiz_data
  rw [List.map_map]
  conv_rhs => rw [← List.map_id b]
  refine List.map_congr_left ?_
  intro p _
  simp only [List.map_map, Function.comp_def, hq, List.map_id, List.map_id', id_eq]

/-! ## The merge utility (combi.py) -/

/-- One iteration of the merge loop: a key already present has the incoming
question list appended to its list, a new key is bound at the end of the
dict. -/
def mergeStep (m : Bank) (kv : String × List Question) : Bank :=
  match lookupD m kv.1 with
  | some _ => m.map (fun p => if p.1 = kv.1 then (p.1, p.2 ++ kv.2) else p)
  | none => m ++ [kv]

/-- combi.py merge_json on the values: start from a copy of the first dict
and fold the second dict's items through the merge loop. -/
def merge_json (d1 d2 : Bank) : Bank := d2.foldl mergeStep d1

/-- The ordering of the output of sorted(combined_data.items()): by chapter
name. -/
def bankLE (p q : String × List Question) : Prop := p.1 ≤ q.1

instance : DecidableRel bankLE := fun p q => inferInstanceAs (Decidable (p.1 ≤ q.1))

instance : IsTotal (String × List Question) bankLE := ⟨fun a b => le_total a.1 b.1⟩

instance : IsTrans (String × List Question) bankLE := ⟨fun _ _ _ h1 h2 => le_trans h1 h2⟩

/-- combi.py's emitted document: the merged dict sorted by chapter name. -/
def sorted_combined_data (d1 d2 : Bank) : Bank :=
  List.insertionSort bankLE (merge_json d1 d2)

/-- How the merge combines the two lists a key may be bound to. -/
def combineOpt : Option (List Question) → Option (List Question) → Option (List Question)
  | some a, some b => some (a ++ b)
  | some a, none => some a
  | none, b => b

theorem lookupD_append {α : Type} (l l' : List (String × α)) (key : String) :
    lookupD (l ++ l') key =
      match lookupD l key with
      | some v => some v
      | none => lookupD l' key := by
  induction l with
  | nil => simp
  | cons kv rest ih =>
    obtain ⟨k, v⟩ := kv
    by_cases hk : key = k
    · simp [lookupD_cons, hk]
    · simp only [List.cons_append, lookupD_cons, if_neg hk]
      exact ih

/-- Lookup through the append-to-existing-key update of the merge loop. -/
theorem lookupD_map_update (m : Bank) (a : String) (ys : List Question) (key : String) :
    lookupD (m.map (fun p => if p.1 = a then (p.1, p.2 ++ ys) else p)) key =
      if key = a then (lookupD m key).map (fun xs => xs ++ ys)
      else lookupD m key := by
  induction m with
  | nil => simp
  | cons kv rest ih =>
    obtain ⟨k, v⟩ := kv
    by_cases hk : key = k
    · subst hk
      by_cases hka : key = a <;> simp [lookupD_cons, hka]
    · by_cases hka : k = a
      · have hka2 : ¬ key = a := fun h => hk (h.trans hka.symm)
        simp [lookupD_cons, hk, hka, hka2, ih]
      · simp [lookupD_cons, hk, hka, ih]

/-- Lookup after one merge iteration. -/
theorem lookupD_mergeStep (m : Bank) (kv : String × List Question) (key : String) :
    lookupD (mergeStep m kv) key =
      if key = kv.1 then
        match lookupD m key with
        | some xs => some (xs ++ kv.2)
        | none => some kv.2
      else lookupD m key := by
  unfold mergeStep
  cases hfind : lookupD m kv.1 with
  | none =>
    rw [lookupD_append]
    by_cases hk : key = kv.1
    · subst hk
      rw [hfind, if_pos rfl, lookupD_cons, if_pos rfl]
    · rw [if_neg hk]
      cases hm : lookupD m key with
      | some v => rfl
      | none => rw [lookupD_cons, if_neg hk]; rfl
  | some xs =>
    rw [lookupD_map_update]
    by_cases hk : key = kv.1
    · subst hk
      rw [if_pos rfl, if_pos rfl, hfind]
      rfl
    · rw [if_neg hk, if_neg hk]

/-- Lookup in the merged dict combines the two lookups. -/
theorem lookupD_merge_json (d2 : Bank) :
    ∀ (d1 : Bank) (key : String), (d2.map Prod.fst).Nodup →
      lookupD (merge_json d1 d2) key = combineOpt (lookupD d1 key) (lookupD d2 key) := by
  induction d2 with
  | nil =>
    intro d1 key _
    show lookupD d1 key = combineOpt (lookupD d1 key) none
    cases h : lookupD d1 key <;> rfl
  | cons kv rest ih =>
    intro d1 key hnd0
    have hnd : kv.1 ∉ rest.map Prod.fst ∧ (rest.map Prod.fst).Nodup := by
      simpa using hnd0
    have hstep : merge_json d1 (kv :: rest) = merge_json (mergeStep d1 kv) rest := rfl
    rw [hstep, ih (mergeStep d1 kv) key hnd.2]
    by_cases hk : key = kv.1
    · have hrest : lookupD rest key = none :=
        lookupD_eq_none (fun hc => hnd.1 (hk ▸ hc))
      rw [hrest, lookupD_mergeStep, if_pos hk]
      obtain ⟨k0, v0⟩ := kv
      rw [lookupD_cons, if_pos hk]
      cases hm : lookupD d1 key <;> rfl
    · rw [lookupD_mergeStep, if_neg hk]
      obtain ⟨k0, v0⟩ := kv
      rw [lookupD_cons, if_neg hk]

/-- The merge loop preserves the key list up to appending the new key. -/
theorem mergeStep_map_fst (m : Bank) (kv : String × List Question) :
    (mergeStep m kv).map Prod.fst = m.map Prod.fst
    ∨ ((mergeStep m kv).map Prod.fst = m.map Prod.fst ++ [kv.1]
        ∧ kv.1 ∉ m.map Prod.fst) := by
  unfold mergeStep
  cases hfind : lookupD m kv.1 with
  | some xs =>
    left
    rw [List.map_map]
    refine List.map_congr_left ?_
    intro p _
    by_cases hp : p.1 = kv.1 <;> simp [Function.comp_def, hp]
  | none =>
    right
    exact ⟨by simp, not_mem_of_lookupD_eq_none hfind⟩

/-- The merged dict has unique keys when the first dict does. -/
theorem merge_json_keys_nodup (d2 : Bank) :
    ∀ d1 : Bank, ((d1 : Bank).map Prod.fst).Nodup →
      ((merge_json d1 d2).map Prod.fst).Nodup := by
  induction d2 with
  | nil => intro d1 h; exact h
  | cons kv rest ih =>
    intro d1 h
    have hstep : merge_json d1 (kv :: rest) = merge_json (mergeStep d1 kv) rest := rfl
    rw [hstep]
    refine ih (mergeStep d1 kv) ?_
    rcases mergeStep_map_fst d1 kv with heq | ⟨heq, hnotmem⟩
    · rw [heq]; exact h
    · rw [heq]
      simp only [List.nodup_append, List.nodup_cons]
      exact ⟨h, ⟨by simp, by simp⟩, by simpa using hnotmem⟩

/-- A key is present exactly when its lookup succeeds. -/
theorem mem_keys_iff_lookupD {α : Type} (l : List (String × α)) (key : String) :
    key ∈ l.map Prod.fst ↔ lookupD l key ≠ none := by
  constructor
  · intro hmem hnone
    exact not_mem_of_lookupD_eq_none hnone hmem
  · intro hne
    by_contra hmem
    exact hne (lookupD_eq_none hmem)

theorem combineOpt_eq_none (x y : Option (List Question)) :
    combineOpt x y = none ↔ x = none ∧ y = none := by
  cases x <;> cases y <;> simp [combineOpt]

/-- C9: with unique chapter names in each input, the emitted document binds
exactly the union of the two chapter sets, a chapter of both banks gets the
first bank's questions followed by the second bank's, a chapter of one bank
keeps its list, and the chapters come out sorted by name; on the concrete
scenario of the spec the output is Ch1 with q1 ++ q2 then Ch2 with q3. -/
theorem merge_json_c9 (A B : Bank)
    (hA : (A.map Prod.fst).Nodup) (hB : (B.map Prod.fst).Nodup) :
    (∀ k, k ∈ (sorted_combined_data A B).map Prod.fst ↔
        (k ∈ A.map Prod.fst ∨ k ∈ B.map Prod.fst))
    ∧ (∀ k a b, lookupD A k = some a → lookupD B k = some b →
        lookupD (sorted_combined_data A B) k = some (a ++ b))
    ∧ (∀ k a, lookupD A k = some a → lookupD B k = none →
        lookupD (sorted_combined_data A B) k = some a)
    ∧ (∀ k b, lookupD A k = none → lookupD B k = some b →
        lookupD (sorted_combined_data A B) k = some b)
    ∧ ((sorted_combined_data A B).map Prod.fst).Pairwise (· ≤ ·)
    ∧ (∀ q1 q2 q3 : Question,
        sorted_combined_data [("Ch1", [q1])] [("Ch1", [q2]), ("Ch2", [q3])]
          = [("Ch1", [q1, q2]), ("Ch2", [q3])]) := by
  have hperm : (merge_json A B).Perm (sorted_combined_data A B) :=
    (List.perm_insertionSort bankLE (merge_json A B)).symm
  have hmnd : ((merge_json A B).map Prod.fst).Nodup := merge_json_keys_nodup B A hA
  have hlook : ∀ k, lookupD (sorted_combined_data A B) k
      = combineOpt (lookupD A k) (lookupD B k) := by
    intro k
    rw [← lookupD_perm hperm hmnd k]
    exact lookupD_merge_json B A k hB
  refine ⟨?_, ?_, ?_, ?_, ?_, ?_⟩
  · intro k
    rw [mem_keys_iff_lookupD, hlook k, mem_keys_iff_lookupD, mem_keys_iff_lookupD]
    rw [not_iff_comm, combineOpt_eq_none]
    constructor
    · intro h
      push_neg at h
      exact ⟨h.1, h.2⟩
    · intro h
      push_neg
      exact ⟨h.1, h.2⟩
  · intro k a b ha hb
    rw [hlook k, ha, hb]
    rfl
  · intro k a ha hb
    rw [hlook k, ha, hb]
    rfl
  · intro k b ha hb
    rw [hlook k, ha, hb]
    rfl
  · have hs : List.Sorted bankLE (sorted_combined_data A B) :=
      List.sorted_insertionSort bankLE (merge_json A B)
    exact List.pairwise_map.mpr hs
  · intro q1 q2 q3
    have hm : merge_json [("Ch1", [q1])] [("Ch1", [q2]), ("Ch2", [q3])]
        = [("Ch1", [q1, q2]), ("Ch2", [q3])] := rfl
    have hle : bankLE ("Ch1", [q1, q2]) ("Ch2", [q3]) := by
      show ("Ch1" : String) ≤ "Ch2"
      rw [String.le_iff_toList_le]
      decide
    unfold sorted_combined_data
    rw [hm]
    simp [List.insertionSort, List.orderedInsert, hle]

/-- Witness for C9 at concrete banks: the shared chapter gets the two lists
concatenated in the emitted document. -/
theorem merge_json_c9_witness :
    lookupD (sorted_combined_data [("Ch1", [sampleQ])]
      [("Ch1", [sampleQ]), ("Ch2", [sampleQ])]) "Ch1" = some ([sampleQ] ++ [sampleQ]) :=
  (merge_json_c9 [("Ch1", [sampleQ])] [("Ch1", [sampleQ]), ("Ch2", [sampleQ])]
    (by decide) (by decide)).2.1 "Ch1" [sampleQ] [sampleQ] rfl rfl

/-! ## Reference semantics of merge_json (for the frame effect on the first
argument)

Python's merge_json starts from dict1.copy(), a shallow copy: the copy binds
the same list objects, and merged[key].extend(value) mutates the list that
dict1 itself holds.  To state this, question lists live on a heap of numeric
references and a dict binds chapter names to references. -/

/-- The heap: the question list stored at each reference. -/
abbrev Heap := Nat → List Question

/-- A bank under reference semantics: chapter name to list reference. -/
abbrev Dict := List (String × Nat)

/-- list.extend in place: the list at reference r grows by v. -/
def extendRef (h : Heap) (r : Nat) (v : List Question) : Heap :=
  fun x => if x = r then h x ++ v else h x

theorem extendRef_same (h : Heap) (r : Nat) (v : List Question) :
    extendRef h r v r = h r ++ v := by
  simp [extendRef]

theorem extendRef_other (h : Heap) (r : Nat) (v : List Question) (x : Nat)
    (hx : x ≠ r) : extendRef h r v x = h x := by
  simp [extendRef, hx]

/-- One iteration of the merge loop under reference semantics: an existing
key has its referenced list extended in place with the contents of the
incoming reference; a new key is bound (to the incoming reference) at the
end. -/
def mergeStepRef (st : Heap × Dict) (kv : String × Nat) : Heap × Dict :=
  match lookupD st.2 kv.1 with
  | some r => (extendRef st.1 r (st.1 kv.2), st.2)
  | none => (st.1, st.2 ++ [kv])

/-- merge_json under reference semantics: the merged dict starts as the
shallow copy of dict1 (same bindings, same references) and dict2's items are
folded through the loop; the result is the final heap and the merged dict. -/
def merge_json_heap (h : Heap) (d1 d2 : Dict) : Heap × Dict :=
  d2.foldl mergeStepRef (h, d1)

/-- In a list of bindings with distinct references, a reference determines
its key. -/
theorem fst_eq_of_mem_of_snd_nodup {a b : String} {r : Nat} :
    ∀ {l : Dict}, (l.map Prod.snd).Nodup → (a, r) ∈ l → (b, r) ∈ l → a = b := by
  intro l
  induction l with
  | nil => simp
  | cons kv rest ih =>
    intro hnd ha hb
    have hnd' : kv.2 ∉ rest.map Prod.snd ∧ (rest.map Prod.snd).Nodup := by
      simpa using hnd
    rcases List.mem_cons.mp ha with ha1 | ha1 <;> rcases List.mem_cons.mp hb with hb1 | hb1
    · rw [← ha1] at hb1
      exact ((Prod.mk.injEq b r a r).mp hb1).1.symm
    · exact absurd (List.mem_map.mpr ⟨(b, r), hb1, by rw [← ha1]⟩) hnd'.1
    · exact absurd (List.mem_map.mpr ⟨(a, r), ha1, by rw [← hb1]⟩) hnd'.1
    · exact ih hnd'.2 ha1 hb1

/-- Two distinct keys with bindings in a reference-distinct dict are bound to
distinct references. -/
theorem lookupD_ne_of_key_ne {l : Dict} {a b : String} {ra rb : Nat}
    (hnd : (l.map Prod.snd).Nodup) (hab : a ≠ b)
    (ha : lookupD l a = some ra) (hb : lookupD l b = some rb) : ra ≠ rb := by
  rintro rfl
  exact hab (fst_eq_of_mem_of_snd_nodup hnd (lookupD_mem ha) (lookupD_mem hb))

/-- The run of the merge loop, seen from one reference ρ bound in the
accumulating dict under key k: the list at ρ ends as its initial contents
followed by the initial contents of the reference the fold's items bind to k,
if any.  The fold's items have distinct keys and distinct references, all
disjoint from the dict's references (separately loaded JSON documents share
no list objects). -/
theorem merge_heap_run :
    ∀ (l : Dict) (h : Heap) (m : Dict) (k : String) (ρ : Nat),
      (l.map Prod.fst).Nodup →
      (l.map Prod.snd).Nodup →
      ((m.map Prod.snd).Nodup) →
      (∀ kv ∈ l, ∀ kv2 ∈ m, kv.2 ≠ kv2.2) →
      lookupD m k = some ρ →
      (l.foldl mergeStepRef (h, m)).1 ρ =
        (lookupD l k).elim (h ρ) (fun r2 => h ρ ++ h r2) := by
  intro l
  induction l with
  | nil =>
    intro h m k ρ _ _ _ _ _
    rfl
  | cons kv rest ih =>
    intro h m k ρ hlk hlr hmr hdisj hρ
    have hlk' : kv.1 ∉ rest.map Prod.fst ∧ (rest.map Prod.fst).Nodup := by
      simpa using hlk
    have hlr' : kv.2 ∉ rest.map Prod.snd ∧ (rest.map Prod.snd).Nodup := by
      simpa using hlr
    have hfold : (kv :: rest).foldl mergeStepRef (h, m)
        = rest.foldl mergeStepRef (mergeStepRef (h, m) kv) := rfl
    rw [hfold]
    by_cases hk : kv.1 = k
    · -- the item for the shared key: its reference's contents are appended
      -- in place to the list at ρ
      have hstep : mergeStepRef (h, m) kv = (extendRef h ρ (h kv.2), m) := by
        unfold mergeStepRef
        rw [show lookupD (h, m).2 kv.1 = some ρ from by rw [hk]; exact hρ]
      rw [hstep]
      have hrest : lookupD rest k = none :=
        lookupD_eq_none (fun hc => hlk'.1 (hk ▸ hc))
      have hlook : lookupD (kv :: rest) k = some kv.2 := by
        obtain ⟨k0, r0⟩ := kv
        rw [lookupD_cons, if_pos hk.symm]
      rw [hlook]
      have := ih (extendRef h ρ (h kv.2)) m k ρ hlk'.2 hlr'.2 hmr
        (fun kv' hkv' kv2 hkv2 => hdisj kv' (List.mem_cons_of_mem _ hkv') kv2 hkv2) hρ
      rw [hrest] at this
      simp only [Option.elim] at this ⊢
      rw [this, extendRef_same]
    · -- an item for another key: it never touches ρ, and it cannot touch the
      -- reference the rest binds to k either
      have hlook : lookupD (kv :: rest) k = lookupD rest k := by
        obtain ⟨k0, r0⟩ := kv
        rw [lookupD_cons, if_neg (fun hc => hk hc.symm)]
      rw [hlook]
      cases hm : lookupD m kv.1 with
      | some r =>
        have hstep : mergeStepRef (h, m) kv = (extendRef h r (h kv.2), m) := by
          unfold mergeStepRef
          rw [show lookupD (h, m).2 kv.1 = some r from hm]
        rw [hstep]
        have hrρ : r ≠ ρ := lookupD_ne_of_key_ne hmr hk hm hρ
        have hιh := ih (extendRef h r (h kv.2)) m k ρ hlk'.2 hlr'.2 hmr
          (fun kv' hkv' kv2 hkv2 => hdisj kv' (List.mem_cons_of_mem _ hkv') kv2 hkv2) hρ
        rw [hιh, extendRef_other h r (h kv.2) ρ hrρ.symm]
        cases hr2 : lookupD rest k with
        | none => rfl
        | some r2 =>
          have hr2mem : (k, r2) ∈ rest := lookupD_mem hr2
          have hr2ne : r2 ≠ r :=
            hdisj (k, r2) (List.mem_cons_of_mem _ hr2mem) (kv.1, r) (lookupD_mem hm)
          simp only [Option.elim]
          rw [extendRef_other h r (h kv.2) r2 hr2ne]
      | none =>
        have hstep : mergeStepRef (h, m) kv = (h, m ++ [kv]) := by
          unfold mergeStepRef
          rw [show lookupD (h, m).2 kv.1 = none from hm]
        rw [hstep]
        have hmr' : ((m ++ [kv]).map Prod.snd).Nodup := by
          rw [List.map_append, List.nodup_append]
          refine ⟨hmr, List.nodup_singleton _, ?_⟩
          intro x hx hx'
          simp only [List.map_cons, List.map_nil, List.mem_singleton] at hx'
          obtain ⟨kv2, hkv2, hkv2x⟩ := List.mem_map.mp hx
          exact hdisj kv (List.mem_cons_self _ _) kv2 hkv2 ((hkv2x.trans hx').symm)
        have hdisj' : ∀ kv' ∈ rest, ∀ kv2 ∈ m ++ [kv], kv'.2 ≠ kv2.2 := by
          intro kv' hkv' kv2 hkv2
          rcases List.mem_append.mp hkv2 with hin | hin
          · exact hdisj kv' (List.mem_cons_of_mem _ hkv') kv2 hin
          · rw [List.mem_singleton.mp hin]
            intro hc
            exact hlr'.1 (List.mem_map.mpr ⟨kv', hkv', hc⟩)
        have hρ' : lookupD (m ++ [kv]) k = some ρ := by
          rw [lookupD_append, hρ]
        exact ih h (m ++ [kv]) k ρ hlk'.2 hlr'.2 hmr' hdisj' hρ'

/-- A binding already present in the dict survives the merge loop: the merged
dict still binds each of dict1's chapters to dict1's own list reference. -/
theorem merge_heap_dict_preserved :
    ∀ (l : Dict) (h : Heap) (m : Dict) (k : String) (v : Nat),
      lookupD m k = some v →
      lookupD (l.foldl mergeStepRef (h, m)).2 k = some v := by
  intro l
  induction l with
  | nil => intro h m k v hv; exact hv
  | cons kv rest ih =>
    intro h m k v hv
    have hfold : (kv :: rest).foldl mergeStepRef (h, m)
        = rest.foldl mergeStepRef (mergeStepRef (h, m) kv) := rfl
    rw [hfold]
    unfold mergeStepRef
    cases hm : lookupD (h, m).2 kv.1 with
    | some r => exact ih _ m k v hv
    | none =>
      refine ih h (m ++ [kv]) k v ?_
      rw [lookupD_append, hv]

/-- C10: merge_json is not pure in its first argument.  Under reference
semantics — dict1.copy() shares list references with dict1, extend mutates in
place, the two documents are separately loaded so their references are
disjoint and each bank's own references and the second bank's keys are
distinct — after the merge, for a chapter k present in both banks, the list
that bank A itself references under k has become A's questions followed by
B's questions, and the merged dict still shares that very reference. -/
theorem merge_json_impure_c10 (h : Heap) (d1 d2 : Dict) (k : String) (r1 r2 : Nat)
    (hd2k : (d2.map Prod.fst).Nodup)
    (hd2r : (d2.map Prod.snd).Nodup)
    (hd1r : (d1.map Prod.snd).Nodup)
    (hdisj : ∀ kv ∈ d2, ∀ kv2 ∈ d1, kv.2 ≠ kv2.2)
    (h1 : lookupD d1 k = some r1) (h2 : lookupD d2 k = some r2) :
    (merge_json_heap h d1 d2).1 r1 = h r1 ++ h r2
    ∧ lookupD (merge_json_heap h d1 d2).2 k = some r1 := by
  constructor
  · have hrun := merge_heap_run d2 h d1 k r1 hd2k hd2r hd1r hdisj h1
    rw [h2] at hrun
    exact hrun
  · exact merge_heap_dict_preserved d2 h d1 k r1 h1

/-- The other sample question, used to populate a concrete heap. -/
def sampleQ2 : Question :=
  ⟨"What is the process by which plants make their food?",
   ["Respiration", "Photosynthesis", "Transpiration", "Digestion"],
   "Photosynthesis", 1.0⟩

/-- A concrete heap of three one-question lists. -/
def heapEx : Heap :=
  fun n => if n = 0 then [sampleQ] else if n = 1 then [sampleQ2] else []

/-- Witness for C10: with bank A binding Ch1 to reference 0 and bank B
binding Ch1 and Ch2 to references 1 and 2, the list A references under Ch1
ends as A's question followed by B's. -/
theorem merge_json_impure_c10_witness :
    (merge_json_heap heapEx [("Ch1", 0)] [("Ch1", 1), ("Ch2", 2)]).1 0
      = heapEx 0 ++ heapEx 1
    ∧ lookupD (merge_json_heap heapEx [("Ch1", 0)] [("Ch1", 1), ("Ch2", 2)]).2 "Ch1"
      = some 0 :=
  merge_json_impure_c10 heapEx [("Ch1", 0)] [("Ch1", 1), ("Ch2", 2)] "Ch1" 0 1
    (by decide) (by decide) (by decide) (by decide) rfl rfl

/-! ## Witnesses at concrete inputs for the remaining claims -/

/-- Witness for C1: on a two-question chapter with weights 1 and 1, the draw
r = 1/2 lands in the first question's slice. -/
theorem select_question_weighted_c1_witness :
    select_question [] [("Ch1", [sampleQ, sampleQ2])] "Ch1" (1/2) 0 = some sampleQ :=
  ((select_question_weighted_c1 [] [("Ch1", [sampleQ, sampleQ2])] "Ch1"
      [sampleQ, sampleQ2]
      (by simp) rfl (by simp)
      (by norm_num [totalWeight, sampleQ, sampleQ2])).1
    (1/2) 0 0 (by norm_num)
    (by norm_num [cumWeight, totalWeight, sampleQ])
    (by intro j hj; omega)).trans rfl

/-- Witness for C4: a disabled chapter and an empty enabled chapter both
yield none. -/
theorem select_question_none_c4_witness :
    select_question ["Ch1"] [("Ch1", [sampleQ])] "Ch1" 1 0 = none
    ∧ select_question [] [("Empty", [])] "Empty" 1 0 = none :=
  ⟨select_question_none_c4.1 ["Ch1"] [("Ch1", [sampleQ])] "Ch1" 1 0 (by simp),
   select_question_none_c4.2 [] [("Empty", [])] "Empty" 1 0 (by simp) rfl⟩

/-- A question whose weight has been explicitly zeroed. -/
def zeroQ : Question := ⟨"Z", ["a", "b"], "a", 0⟩

/-- Witness for C5: a chapter of two zero-weight questions hands back the
question at the drawn index. -/
theorem select_question_zero_total_c5_witness :
    select_question [] [("Ch0", [zeroQ, zeroQ])] "Ch0" 0 1 = some zeroQ :=
  ((select_question_zero_total_c5 [] [("Ch0", [zeroQ, zeroQ])] "Ch0" [zeroQ, zeroQ]
      (by simp) rfl (by simp)
      (by norm_num [totalWeight, zeroQ])).2.1
    0 1 (by norm_num)).trans rfl

/-- A concrete stored document, one question without a weight field and one
with weight 2. -/
def rawEx : RawBank :=
  [("C", [⟨"q1", ["a"], "a", none⟩, ⟨"q2", ["b"], "b", some 2⟩])]

/-- Witness for C6: the concrete document loads in the stated relation. -/
theorem load_quiz_data_c6_witness :
    List.Forall₂
      (fun (pr : String × List RawQuestion) (pl : String × List Question) =>
        pl.1 = pr.1 ∧ List.Forall₂ questionLoadsAs pr.2 pl.2)
      rawEx (load_quiz_data (StoreInput.ok rawEx)) :=
  load_quiz_data_c6 rawEx

/-- Witness for C8: the sample bank survives a save/load round trip. -/
theorem load_save_roundtrip_c8_witness :
    load_quiz_data (StoreInput.ok (save_quiz_data create_sample_data))
      = create_sample_data :=
  load_save_roundtrip_c8 create_sample_data

end BioQuiz
